import Mathlib

/-!
Shallow embedding of the `multi-vec` crate (`src/lib.rs`).

`MultiVec<N, T>` holds a flat storage vector `inner`, a stride table
`offsets : [usize; N]`, and a view registry `refs`.  Views
(`MultiVecRef<N, T>`) hold a sub-slice of the storage and the remaining
stride suffix.  The const-generic dimension count `N` is represented by
the length of the `offsets` list; machine integers `usize` are modelled
as `Nat` (none of the modelled operations overflow is claimed; the
claims are about list lengths and indices, where Rust would panic on
overflow long after the bounds checks modelled here fire).  Fallible
operations (slice indexing, division) return `Option`: `none` models a
Rust panic.
-/

/-- A view `MultiVecRef<N, T>`: a sub-slice of the root storage plus the
remaining stride suffix (`offsets`).  The `refs` back-pointer carries no
data relevant to the modelled operations and is omitted. -/
structure MultiVecRef (T : Type) where
  slice : List T
  offsets : List Nat
deriving DecidableEq

/-- The root container `MultiVec<N, T>`: owned storage, stride table and
the view registry, modelled by the number of view records registered. -/
structure MultiVec (T : Type) where
  inner : List T
  offsets : List Nat
  refs : Nat
deriving DecidableEq

/-- The running-product loop of `MultiVec::from_fn`: Rust maps
`|n| { prod *= n; prod }` over the reversed `sizes` array with the
mutable accumulator `prod`. -/
def offsetsRevAux : Nat → List Nat → List Nat
  | _, [] => []
  | acc, n :: rest => (acc * n) :: offsetsRevAux (acc * n) rest

/-- The stride table computed in `MultiVec::from_fn`:
`sizes.reverse(); offsets = sizes.map(running product); offsets.reverse()`. -/
def mkOffsets (sizes : List Nat) : List Nat :=
  (offsetsRevAux 1 sizes.reverse).reverse

/-- Reference form of the stride table: suffix products
(`strides[i] = sizes[i] * strides[i+1]`, from the spec's description);
proved equal to `mkOffsets` below. -/
def suffixProds : List Nat → List Nat
  | [] => []
  | n :: rest => (n * rest.prod) :: suffixProds rest

/-- Row-major enumeration of all coordinate tuples of the given extents:
the model of `itertools::multi_cartesian_product` over `(0..n)` ranges
(first range varies slowest). -/
def coords : List Nat → List (List Nat)
  | [] => [[]]
  | n :: rest => (List.range n).flatMap fun i => (coords rest).map (i :: ·)

/-- The storage built by `MultiVec::from_fn`: `f` applied, in row-major
enumeration order, to every tuple in
`[0,outer_size) × [0,sizes[0]) × … × [0,sizes[N-1])`; the head of each
tuple is the outer index (`indices.remove(0)`), the tail the inner ones. -/
def fromFnStorage (T : Type) (outer : Nat) (sizes : List Nat)
    (f : Nat → List Nat → T) : List T :=
  (coords (outer :: sizes)).map fun c => f (c.headD 0) c.tail

/-- `MultiVec::from_fn(outer_size, sizes, f)`: stride table plus
generated storage; the registry starts empty (`Refs::new()`). -/
def MultiVec.from_fn (T : Type) (outer : Nat) (sizes : List Nat)
    (f : Nat → List Nat → T) : MultiVec T :=
  ⟨fromFnStorage T outer sizes f, mkOffsets sizes, 0⟩

/-- `MultiVec::default(outer_size, sizes)`: `from_fn` with a generator
that ignores the indices and returns the element type's default value
(passed here as the explicit argument `d`). -/
def MultiVec.defaultMV (T : Type) (outer : Nat) (sizes : List Nat) (d : T) :
    MultiVec T :=
  MultiVec.from_fn T outer sizes fun _ _ => d

/-- `Deref for MultiVec`: materialize a view of the whole container
(full slice, full stride table).  The heap allocation and registry
bookkeeping carry no data and are not modelled. -/
def MultiVec.toRef (m : MultiVec T) : MultiVecRef T :=
  ⟨m.inner, m.offsets⟩

/-- `Clone for MultiVec`: duplicate storage and strides; the fresh
container's registry is `Refs::new()`, i.e. empty. -/
def MultiVec.cloneMV (m : MultiVec T) : MultiVec T :=
  ⟨m.inner, m.offsets, 0⟩

/-- `PartialEq for MultiVec`: `self.inner == other.inner && self.offsets
== other.offsets`; the registry does not participate. -/
def MultiVec.eqMV (a b : MultiVec T) : Prop :=
  a.inner = b.inner ∧ a.offsets = b.offsets

instance (T : Type) [DecidableEq T] (a b : MultiVec T) :
    Decidable (MultiVec.eqMV a b) :=
  inferInstanceAs (Decidable (_ ∧ _))

/-- `MultiVecRef::size`:
`self.slice().len() / self.offsets().first().cloned().unwrap_or(1)`.
A zero divisor (possible when some declared size is 0) makes the Rust
division panic; that is modelled by `none`. -/
def MultiVecRef.size (v : MultiVecRef T) : Option Nat :=
  if v.offsets.headD 1 = 0 then none
  else some (v.slice.length / v.offsets.headD 1)

/-- `Index<usize> for MultiVecRef<N, T>` with `N > 0` (the
`impl_index!` macro): split the stride table, take the sub-slice
`[index*offset, (index+1)*offset)` and keep the stride tail.  The Rust
slice expression panics exactly when `(index+1)*offset > len`, modelled
by `none`.  The `offsets = []` case is unreachable in Rust (that type
has the direct-element `Index` impl instead). -/
def MultiVecRef.index (v : MultiVecRef T) (i : Nat) : Option (MultiVecRef T) :=
  match v.offsets with
  | [] => none
  | off :: rest =>
    if (i + 1) * off ≤ v.slice.length then
      some ⟨(v.slice.drop (i * off)).take off, rest⟩
    else none

/-- `Index<usize> for MultiVecRef<0, T>`: direct element access
`&self.slice()[index]`, which panics (`none`) out of bounds.  In Rust
this impl exists only at `N = 0`, i.e. `offsets = []`. -/
def MultiVecRef.index0 (v : MultiVecRef T) (i : Nat) : Option T :=
  v.slice[i]?

/-- Repeated `Index` steps (`v[i₁][i₂]…`), each producing a sub-view. -/
def viewPath : MultiVecRef T → List Nat → Option (MultiVecRef T)
  | v, [] => some v
  | v, i :: rest => (v.index i).bind fun v2 => viewPath v2 rest

/-- A full read `m[i₁]…[iₙ][e]`: sub-view `Index` steps while the stride
table is non-empty, and the `MultiVecRef<0, T>` element access at the
end.  A path of the wrong arity does not typecheck in Rust (`none`). -/
def readPath : MultiVecRef T → List Nat → Option T
  | _, [] => none
  | v, i :: rest =>
    match v.offsets with
    | [] => match rest with
      | [] => v.index0 i
      | _ :: _ => none
    | _ :: _ => (v.index i).bind fun v2 => readPath v2 rest

/-- A full write `m[i₁]…[iₙ][e] = val` through `IndexMut`: each step
narrows to the mutable sub-slice `[i*offset, (i+1)*offset)`; the final
`MultiVecRef<0, T>` step assigns the element.  Writing through the
borrowed sub-slice updates that region of the parent slice, modelled by
rebuilding `take ++ written sub-slice ++ drop`. -/
def writePath : List T → List Nat → List Nat → T → Option (List T)
  | _, _, [], _ => none
  | slice, [], i :: rest, val =>
    match rest with
    | [] => if i < slice.length then some (slice.set i val) else none
    | _ :: _ => none
  | slice, off :: offs, i :: rest, val =>
    if (i + 1) * off ≤ slice.length then
      match writePath ((slice.drop (i * off)).take off) offs rest val with
      | none => none
      | some sub =>
        some (slice.take (i * off) ++ sub ++ slice.drop ((i + 1) * off))
    else none

/-- Writing one element of a container at coordinates `(o, is)` through
the mutable view chain `m[o][i₀]…[i_{N-1}] = val`. -/
def MultiVec.writeMV (m : MultiVec T) (o : Nat) (is : List Nat) (val : T) :
    Option (MultiVec T) :=
  (writePath m.inner m.offsets (o :: is) val).map fun l => ⟨l, m.offsets, m.refs⟩

/-- Fully populating a container: writing `f o is` at every in-range
coordinate tuple, in row-major enumeration order (as the crate's
`test_from_fn_2` does with nested loops). -/
def MultiVec.populate (m : MultiVec T) (outer : Nat) (sizes : List Nat)
    (f : Nat → List Nat → T) : Option (MultiVec T) :=
  (coords (outer :: sizes)).foldl
    (fun acc c => acc.bind fun mm =>
      mm.writeMV (c.headD 0) c.tail (f (c.headD 0) c.tail))
    (some m)

/-- The flat offset of inner coordinates `is` inside one outer row, for
declared extents `sizes`: `i₀*strides[1] + … + i_{N-1}` (mixed radix). -/
def flatIdx : List Nat → List Nat → Nat
  | _, [] => 0
  | [], _ :: _ => 0
  | _ :: srest, i :: irest => i * srest.prod + flatIdx srest irest

lemma offsetsRevAux_append (a : Nat) (l : List Nat) (x : Nat) :
    offsetsRevAux a (l ++ [x]) = offsetsRevAux a l ++ [a * l.prod * x] := by
  induction l generalizing a with
  | nil => simp [offsetsRevAux]
  | cons n l ih => simp [offsetsRevAux, ih, mul_assoc]

lemma mkOffsets_eq_suffixProds (sizes : List Nat) :
    mkOffsets sizes = suffixProds sizes := by
  induction sizes with
  | nil => rfl
  | cons n rest ih =>
    unfold mkOffsets at ih ⊢
    rw [List.reverse_cons, offsetsRevAux_append, List.reverse_append]
    simp [suffixProds, ih, List.prod_reverse, mul_comm]

lemma suffixProds_length (sizes : List Nat) :
    (suffixProds sizes).length = sizes.length := by
  induction sizes with
  | nil => rfl
  | cons n rest ih => simp [suffixProds, ih]

lemma suffixProds_getElem? (sizes : List Nat) (i : Nat) (h : i < sizes.length) :
    (suffixProds sizes)[i]? = some (sizes.drop i).prod := by
  induction sizes generalizing i with
  | nil => simp at h
  | cons n rest ih =>
    cases i with
    | zero => simp [suffixProds]
    | succ j => simpa [suffixProds] using ih j (by simpa using h)

lemma flatMap_blocks_length (g : Nat → List α) (L : Nat)
    (hg : ∀ j, (g j).length = L) (n : Nat) :
    ((List.range n).flatMap g).length = n * L := by
  induction n with
  | zero => simp
  | succ n ih =>
    rw [List.range_succ, List.flatMap_append, List.length_append, ih]
    simp [hg, Nat.succ_mul]

lemma coords_length (dims : List Nat) : (coords dims).length = dims.prod := by
  induction dims with
  | nil => rfl
  | cons n rest ih =>
    show ((List.range n).flatMap _).length = _
    rw [flatMap_blocks_length _ rest.prod (fun j => by simp [ih]) n]
    simp [mul_comm]

lemma flatMap_blocks_getElem? (g : Nat → List α) (L : Nat)
    (hg : ∀ j, (g j).length = L) (n i p : Nat) (hi : i < n) (hp : p < L) :
    ((List.range n).flatMap g)[i * L + p]? = (g i)[p]? := by
  induction n with
  | zero => omega
  | succ n ih =>
    rw [List.range_succ, List.flatMap_append, List.getElem?_append]
    rw [flatMap_blocks_length g L hg n]
    rcases Nat.lt_or_ge i n with hlt | hge
    · rw [if_pos (by nlinarith)]
      exact ih hlt
    · have hin : i = n := by omega
      subst hin
      rw [if_neg (by omega)]
      simp

lemma flatIdx_lt {is sizes : List Nat} (h : List.Forall₂ (· < ·) is sizes) :
    flatIdx sizes is < sizes.prod := by
  induction h with
  | nil => simp [flatIdx]
  | @cons a b is' sizes' hab htail ih =>
    show a * sizes'.prod + flatIdx sizes' is' < (b :: sizes').prod
    have h1 : a * sizes'.prod + flatIdx sizes' is' < (a + 1) * sizes'.prod := by
      rw [Nat.succ_mul]
      omega
    have h2 : (a + 1) * sizes'.prod ≤ b * sizes'.prod :=
      Nat.mul_le_mul_right _ (by omega)
    simp only [List.prod_cons]
    omega

lemma coords_getElem? {cs dims : List Nat}
    (h : List.Forall₂ (· < ·) cs dims) :
    (coords dims)[flatIdx dims cs]? = some cs := by
  induction h with
  | nil => rfl
  | @cons a b cs' dims' hab htail ih =>
    show ((List.range b).flatMap
      fun i => (coords dims').map (i :: ·))[a * dims'.prod + flatIdx dims' cs']?
      = some (a :: cs')
    rw [flatMap_blocks_getElem? _ dims'.prod
      (fun j => by simp [coords_length]) b a _ hab (flatIdx_lt htail)]
    simp [ih]

lemma forall₂_of_mem_coords :
    ∀ {dims cs : List Nat}, cs ∈ coords dims → List.Forall₂ (· < ·) cs dims := by
  intro dims
  induction dims with
  | nil =>
    intro cs h
    simp [coords] at h
    subst h
    exact .nil
  | cons n rest ih =>
    intro cs h
    simp only [coords, List.mem_flatMap, List.mem_map, List.mem_range] at h
    obtain ⟨i, hi, cs', hcs', rfl⟩ := h
    exact .cons hi (ih hcs')

lemma set_split (l : List α) (a L q : Nat) (v : α) (hq : q < L)
    (hL : a + L ≤ l.length) :
    l.take a ++ ((l.drop a).take L).set q v ++ l.drop (a + L)
      = l.set (a + q) v := by
  have hta : (l.take a).length = a := by
    rw [List.length_take]
    omega
  have htL : ((l.drop a).take L).length = L := by
    rw [List.length_take, List.length_drop]
    omega
  have hq' : a + q - a = q := by omega
  conv_rhs => rw [← List.take_append_drop a l]
  rw [List.set_append, if_neg (by rw [hta]; omega), hta, hq']
  conv_rhs => rw [← List.take_append_drop L (l.drop a)]
  rw [List.set_append, if_pos (by rw [htL]; omega), List.drop_drop,
    List.append_assoc]

lemma readPath_eq_getElem? {sizes is : List Nat} (slice : List T)
    (outer o : Nat) (hlen : slice.length = outer * sizes.prod)
    (ho : o < outer) (his : List.Forall₂ (· < ·) is sizes) :
    readPath ⟨slice, suffixProds sizes⟩ (o :: is)
      = slice[o * sizes.prod + flatIdx sizes is]? := by
  induction his generalizing slice outer o with
  | nil =>
    simp [readPath, suffixProds, MultiVecRef.index0, flatIdx]
  | @cons i s irest srest hi htail ih =>
    have hP : flatIdx srest irest < srest.prod := flatIdx_lt htail
    set P := srest.prod with hPdef
    have hbound : (o + 1) * (s * P) ≤ slice.length := by
      rw [hlen, List.prod_cons]
      exact Nat.mul_le_mul_right _ (by omega)
    have hsub : ((slice.drop (o * (s * P))).take (s * P)).length = s * P := by
      rw [List.length_take, List.length_drop]
      have : o * (s * P) + s * P ≤ slice.length := by
        calc o * (s * P) + s * P = (o + 1) * (s * P) := by ring
        _ ≤ slice.length := hbound
      omega
    have hq : i * P + flatIdx srest irest < s * P :=
      flatIdx_lt (List.Forall₂.cons hi htail)
    show readPath ⟨slice, (s * P) :: suffixProds srest⟩ (o :: i :: irest) = _
    rw [readPath]
    dsimp only [MultiVecRef.index]
    rw [if_pos hbound]
    simp only [Option.some_bind]
    rw [ih ((slice.drop (o * (s * P))).take (s * P)) s i hsub hi]
    rw [List.getElem?_take, if_pos hq, List.getElem?_drop]
    show slice[o * (s * P) + (i * P + flatIdx srest irest)]? = _
    rw [List.prod_cons]
    rfl

lemma writePath_eq_set {sizes is : List Nat} (slice : List T)
    (outer o : Nat) (val : T) (hlen : slice.length = outer * sizes.prod)
    (ho : o < outer) (his : List.Forall₂ (· < ·) is sizes) :
    writePath slice (suffixProds sizes) (o :: is) val
      = some (slice.set (o * sizes.prod + flatIdx sizes is) val) := by
  induction his generalizing slice outer o with
  | nil =>
    have : o < slice.length := by
      rw [hlen]
      simpa using ho
    simp [writePath, suffixProds, flatIdx, this]
  | @cons i s irest srest hi htail ih =>
    have hP : flatIdx srest irest < srest.prod := flatIdx_lt htail
    set P := srest.prod with hPdef
    have hbound : (o + 1) * (s * P) ≤ slice.length := by
      rw [hlen, List.prod_cons]
      exact Nat.mul_le_mul_right _ (by omega)
    have hsub : ((slice.drop (o * (s * P))).take (s * P)).length = s * P := by
      rw [List.length_take, List.length_drop]
      have : o * (s * P) + s * P ≤ slice.length := by
        calc o * (s * P) + s * P = (o + 1) * (s * P) := by ring
        _ ≤ slice.length := hbound
      omega
    have hq : i * P + flatIdx srest irest < s * P :=
      flatIdx_lt (List.Forall₂.cons hi htail)
    show writePath slice ((s * P) :: suffixProds srest) (o :: i :: irest) val = _
    rw [writePath]
    simp only [if_pos hbound]
    rw [ih ((slice.drop (o * (s * P))).take (s * P)) s i hsub hi]
    have hsplit := set_split slice (o * (s * P)) (s * P)
      (i * P + flatIdx srest irest) val hq
      (by calc o * (s * P) + s * P = (o + 1) * (s * P) := by ring
          _ ≤ slice.length := hbound)
    have harith : (o + 1) * (s * P) = o * (s * P) + s * P := by ring
    dsimp only
    rw [harith, hsplit]
    show _ = some (slice.set (o * (s :: srest).prod + (i * P + flatIdx srest irest)) val)
    rw [List.prod_cons]

lemma flatIdx_inj {is is' sizes : List Nat}
    (h : List.Forall₂ (· < ·) is sizes) (h' : List.Forall₂ (· < ·) is' sizes)
    (heq : flatIdx sizes is = flatIdx sizes is') : is = is' := by
  induction h generalizing is' with
  | nil =>
    cases h'
    rfl
  | @cons i s irest srest hi htail ih =>
    obtain ⟨i', irest', hi', htail', rfl⟩ :
        ∃ i' irest', i' < s ∧ List.Forall₂ (· < ·) irest' srest
          ∧ is' = i' :: irest' := by
      cases h' with
      | cons ha hb => exact ⟨_, _, ha, hb, rfl⟩
    have hf : flatIdx srest irest < srest.prod := flatIdx_lt htail
    have hf' : flatIdx srest irest' < srest.prod := flatIdx_lt htail'
    have heq2 : i * srest.prod + flatIdx srest irest
        = i' * srest.prod + flatIdx srest irest' := heq
    have hii : i = i' := by
      rcases Nat.lt_trichotomy i i' with hlt | he | hgt
      · have : (i + 1) * srest.prod ≤ i' * srest.prod :=
          Nat.mul_le_mul_right _ (by omega)
        nlinarith [Nat.succ_mul i srest.prod]
      · exact he
      · have : (i' + 1) * srest.prod ≤ i * srest.prod :=
          Nat.mul_le_mul_right _ (by omega)
        nlinarith [Nat.succ_mul i' srest.prod]
    subst hii
    have : flatIdx srest irest = flatIdx srest irest' := by omega
    rw [ih htail' this]

lemma addr_inj {sizes is is' : List Nat} {o o' : Nat}
    (h : List.Forall₂ (· < ·) is sizes) (h' : List.Forall₂ (· < ·) is' sizes)
    (heq : o * sizes.prod + flatIdx sizes is
      = o' * sizes.prod + flatIdx sizes is') :
    o = o' ∧ is = is' := by
  have hf : flatIdx sizes is < sizes.prod := flatIdx_lt h
  have hf' : flatIdx sizes is' < sizes.prod := flatIdx_lt h'
  have hoo : o = o' := by
    rcases Nat.lt_trichotomy o o' with hlt | he | hgt
    · have : (o + 1) * sizes.prod ≤ o' * sizes.prod :=
        Nat.mul_le_mul_right _ (by omega)
      nlinarith [Nat.succ_mul o sizes.prod]
    · exact he
    · have : (o' + 1) * sizes.prod ≤ o * sizes.prod :=
        Nat.mul_le_mul_right _ (by omega)
      nlinarith [Nat.succ_mul o' sizes.prod]
  subst hoo
  exact ⟨rfl, flatIdx_inj h h' (by omega)⟩

lemma fromFnStorage_length (outer : Nat) (sizes : List Nat)
    (f : Nat → List Nat → T) :
    (fromFnStorage T outer sizes f).length = outer * sizes.prod := by
  unfold fromFnStorage
  rw [List.length_map, coords_length, List.prod_cons]

lemma fromFnStorage_getElem? (outer : Nat) (sizes : List Nat)
    (f : Nat → List Nat → T) (o : Nat) (is : List Nat)
    (ho : o < outer) (his : List.Forall₂ (· < ·) is sizes) :
    (fromFnStorage T outer sizes f)[o * sizes.prod + flatIdx sizes is]?
      = some (f o is) := by
  have h2 : List.Forall₂ (· < ·) (o :: is) (outer :: sizes) := .cons ho his
  have h3 := coords_getElem? h2
  simp only [flatIdx] at h3
  unfold fromFnStorage
  rw [List.getElem?_map, h3]
  rfl

lemma viewPath_core :
    ∀ (p : List Nat) (sizes : List Nat) (slice : List T) (outer : Nat),
    slice.length = outer * sizes.prod →
    List.Forall₂ (· < ·) p ((outer :: sizes).take p.length) →
    p.length ≤ sizes.length →
    ∃ sub : List T,
      viewPath ⟨slice, suffixProds sizes⟩ p
        = some ⟨sub, suffixProds (sizes.drop p.length)⟩
      ∧ sub.length = ((outer :: sizes).drop p.length).prod := by
  intro p
  induction p with
  | nil =>
    intro sizes slice outer hlen _ _
    exact ⟨slice, rfl, by simpa [List.prod_cons] using hlen⟩
  | cons i rest ih =>
    intro sizes slice outer hlen hp hlen2
    cases sizes with
    | nil => simp at hlen2
    | cons s srest =>
      set P := srest.prod with hPdef
      rw [List.length_cons, List.take_succ_cons] at hp
      obtain ⟨hi, hrest⟩ : i < outer
          ∧ List.Forall₂ (· < ·) rest ((s :: srest).take rest.length) := by
        cases hp with
        | cons ha hb => exact ⟨ha, hb⟩
      have hbound : (i + 1) * (s * P) ≤ slice.length := by
        rw [hlen, List.prod_cons]
        exact Nat.mul_le_mul_right _ (by omega)
      have hsub : ((slice.drop (i * (s * P))).take (s * P)).length = s * P := by
        rw [List.length_take, List.length_drop]
        have : i * (s * P) + s * P ≤ slice.length := by
          calc i * (s * P) + s * P = (i + 1) * (s * P) := by ring
          _ ≤ slice.length := hbound
        omega
      obtain ⟨sub, hview, hsublen⟩ :=
        ih srest ((slice.drop (i * (s * P))).take (s * P)) s hsub hrest
          (by simpa using hlen2)
      refine ⟨sub, ?_, ?_⟩
      · show viewPath ⟨slice, (s * P) :: suffixProds srest⟩ (i :: rest) = _
        rw [viewPath]
        dsimp only [MultiVecRef.index]
        rw [if_pos hbound]
        simp only [Option.some_bind]
        rw [hview]
        simp [List.drop_succ_cons]
      · rw [hsublen]
        simp [List.drop_succ_cons]

lemma coords_map_headD_tail (outer : Nat) (sizes : List Nat) (c : List Nat) :
    (c.headD 0) * sizes.prod + flatIdx sizes c.tail
      = flatIdx (outer :: sizes) c := by
  cases c with
  | nil => simp [flatIdx]
  | cons o is => rfl

lemma range_mul_flatMap (P : Nat) :
    ∀ n : Nat, (List.range n).flatMap (fun i => (List.range P).map (i * P + ·))
      = List.range (n * P) := by
  intro n
  induction n with
  | zero => simp
  | succ n ih =>
    rw [List.range_succ, List.flatMap_append, ih, Nat.succ_mul, List.range_add]
    simp

lemma coords_map_flatIdx :
    ∀ dims : List Nat, (coords dims).map (flatIdx dims) = List.range dims.prod := by
  intro dims
  induction dims with
  | nil => rfl
  | cons n rest ih =>
    show ((List.range n).flatMap
      fun i => (coords rest).map (i :: ·)).map (flatIdx (n :: rest)) = _
    rw [List.map_flatMap]
    have hmaps : ∀ i : Nat,
        ((coords rest).map (i :: ·)).map (flatIdx (n :: rest))
          = (List.range rest.prod).map (i * rest.prod + ·) := by
      intro i
      rw [List.map_map, ← ih, List.map_map]
      rfl
    calc ((List.range n).flatMap
          fun i => ((coords rest).map (i :: ·)).map (flatIdx (n :: rest)))
        = (List.range n).flatMap
          fun i => (List.range rest.prod).map (i * rest.prod + ·) := by
          simp only [hmaps]
      _ = List.range (n * rest.prod) := range_mul_flatMap rest.prod n
      _ = List.range (n :: rest).prod := by rw [List.prod_cons]

lemma foldl_set_shifted (vals : List T) :
    ∀ (pre l : List T), l.length = vals.length →
    ((List.range' pre.length vals.length).zip vals).foldl
      (fun acc kv => acc.set kv.1 kv.2) (pre ++ l) = pre ++ vals := by
  induction vals with
  | nil =>
    intro pre l h
    rw [List.length_eq_zero.mp h]
    simp
  | cons v vs ih =>
    intro pre l h
    cases l with
    | nil => simp at h
    | cons x xs =>
      rw [List.length_cons, List.range'_succ, List.zip_cons_cons, List.foldl_cons]
      have hset : (pre ++ x :: xs).set pre.length v = (pre ++ [v]) ++ xs := by
        rw [List.set_append, if_neg (by omega), Nat.sub_self, List.set_cons_zero]
        simp
      rw [hset]
      have hpre1 : pre.length + 1 = (pre ++ [v]).length := by simp
      rw [hpre1, ih (pre ++ [v]) xs (by simpa using h)]
      simp

lemma populate_fold (sizes : List Nat) (outer : Nat) (f : Nat → List Nat → T) :
    ∀ (cs : List (List Nat)) (l : List T) (r : Nat),
    (∀ c ∈ cs, List.Forall₂ (· < ·) c (outer :: sizes)) →
    l.length = outer * sizes.prod →
    cs.foldl (fun acc c => acc.bind fun mm =>
        MultiVec.writeMV mm (c.headD 0) c.tail (f (c.headD 0) c.tail))
      (some (⟨l, suffixProds sizes, r⟩ : MultiVec T))
    = some (⟨cs.foldl (fun acc c =>
        acc.set ((c.headD 0) * sizes.prod + flatIdx sizes c.tail)
          (f (c.headD 0) c.tail)) l, suffixProds sizes, r⟩ : MultiVec T) := by
  intro cs
  induction cs with
  | nil => intro l r _ _; rfl
  | cons c cs ih =>
    intro l r hmem hlen
    have hc := hmem c (by simp)
    obtain ⟨o, is, ho, his, rfl⟩ :
        ∃ o is, o < outer ∧ List.Forall₂ (· < ·) is sizes ∧ c = o :: is := by
      cases hc with
      | cons ha hb => exact ⟨_, _, ha, hb, rfl⟩
    rw [List.foldl_cons, List.foldl_cons]
    have hw : MultiVec.writeMV ⟨l, suffixProds sizes, r⟩ o is (f o is)
        = some ⟨l.set (o * sizes.prod + flatIdx sizes is) (f o is),
            suffixProds sizes, r⟩ := by
      unfold MultiVec.writeMV
      rw [writePath_eq_set l outer o (f o is) hlen ho his]
      rfl
    simp only [Option.some_bind, List.headD, List.tail]
    rw [hw]
    exact ih _ r (fun c2 h2 => hmem c2 (by simp [h2]))
      (by rw [List.length_set]; exact hlen)

lemma getElem?_isSome_iff (l : List α) (i : Nat) :
    l[i]?.isSome = true ↔ i < l.length := by
  rw [Option.isSome_iff_ne_none]
  constructor
  · intro h
    by_contra hc
    exact h (List.getElem?_eq_none (by omega))
  · intro h hc
    rw [List.getElem?_eq_getElem h] at hc
    cases hc

lemma writePath_length :
    ∀ (path : List Nat) (slice : List T) (offs : List Nat) (val : T)
      (out : List T), writePath slice offs path val = some out →
      out.length = slice.length := by
  intro path
  induction path with
  | nil => intro slice offs val out h; simp [writePath] at h
  | cons i rest ih =>
    intro slice offs val out h
    cases offs with
    | nil =>
      cases rest with
      | nil =>
        rw [writePath] at h
        by_cases hi : i < slice.length
        · rw [if_pos hi] at h
          cases h
          rw [List.length_set]
        · rw [if_neg hi] at h
          cases h
      | cons a b =>
        rw [writePath] at h
        cases h
    | cons off offrest =>
      rw [writePath] at h
      by_cases hb : (i + 1) * off ≤ slice.length
      · rw [if_pos hb] at h
        rcases hsub : writePath ((slice.drop (i * off)).take off) offrest rest val
          with _ | sub
        · rw [hsub] at h
          cases h
        · rw [hsub] at h
          cases h
          have hs := ih _ _ val sub hsub
          rw [List.length_take, List.length_drop] at hs
          have h1 : i * off + off ≤ slice.length := by
            calc i * off + off = (i + 1) * off := by ring
            _ ≤ slice.length := hb
          simp only [List.length_append, List.length_take, List.length_drop]
          have h2 : sub.length = off := by omega
          have h3 : (i + 1) * off = i * off + off := by ring
          rw [h2, h3]
          omega
      · rw [if_neg hb] at h
        cases h

/-- C1: Round-trip addressing — for every generator `f`, outer size,
extents `sizes`, and in-range coordinate tuple `(o, i₀, …, i_{N-1})`,
indexing the container built by `from_fn(outer_size, sizes, f)` by `o`,
then each inner index in sequence, yields exactly `f(o, [i₀, …, i_{N-1}])`. -/
theorem mv_C1_roundtrip (T : Type) (outer : Nat) (sizes : List Nat)
    (f : Nat → List Nat → T) (o : Nat) (is : List Nat)
    (ho : o < outer) (his : List.Forall₂ (· < ·) is sizes) :
    readPath (MultiVec.toRef (MultiVec.from_fn T outer sizes f)) (o :: is)
      = some (f o is) := by
  show readPath ⟨fromFnStorage T outer sizes f, mkOffsets sizes⟩ (o :: is) = _
  rw [mkOffsets_eq_suffixProds,
    readPath_eq_getElem? _ outer o (fromFnStorage_length outer sizes f) ho his]
  exact fromFnStorage_getElem? outer sizes f o is ho his

/-- Witness for C1 at `outer_size = 3`, `sizes = [4, 5]`,
`f(o, [i, j]) = 100o + 10i + j`, coordinates `(1, 2, 3)`. -/
theorem mv_C1_roundtrip_witness :
    readPath (MultiVec.toRef (MultiVec.from_fn Nat 3 [4, 5]
      fun o is => 100 * o + 10 * is.headD 0 + is.getD 1 0)) [1, 2, 3]
      = some 123 :=
  mv_C1_roundtrip Nat 3 [4, 5]
    (fun o is => 100 * o + 10 * is.headD 0 + is.getD 1 0) 1 [2, 3]
    (by decide) (by decide)

/-- C2: Stride table correctness — the offsets computed during
construction have the length of `sizes`, each entry is the product of
the sizes from that position on, the last entry equals the last size,
each entry satisfies `strides[i] = sizes[i] * strides[i+1]`, and for
`N = 0` the table is empty. -/
theorem mv_C2_strides (sizes : List Nat) :
    (mkOffsets sizes).length = sizes.length
    ∧ (∀ i, i < sizes.length →
        (mkOffsets sizes)[i]? = some (sizes.drop i).prod)
    ∧ (0 < sizes.length →
        (mkOffsets sizes)[sizes.length - 1]? = sizes[sizes.length - 1]?)
    ∧ (∀ i, i + 1 < sizes.length →
        (mkOffsets sizes).getD i 0
          = sizes.getD i 0 * (mkOffsets sizes).getD (i + 1) 0)
    ∧ (sizes = [] → mkOffsets sizes = []) := by
  rw [mkOffsets_eq_suffixProds]
  refine ⟨suffixProds_length sizes, ?_, ?_, ?_, ?_⟩
  · intro i hi
    exact suffixProds_getElem? sizes i hi
  · intro hpos
    have hlt : sizes.length - 1 < sizes.length := by omega
    rw [suffixProds_getElem? sizes _ hlt, List.drop_eq_getElem_cons hlt]
    have : sizes.length - 1 + 1 = sizes.length := by omega
    rw [this, List.drop_length]
    simp [List.getElem?_eq_getElem hlt]
  · intro i hi
    have hi1 : i < sizes.length := by omega
    have hi2 : i + 1 < sizes.length := hi
    simp only [List.getD_eq_getElem?_getD]
    rw [suffixProds_getElem? sizes i hi1, suffixProds_getElem? sizes (i + 1) hi2]
    simp only [Option.getD_some, List.getElem?_eq_getElem hi1]
    rw [List.drop_eq_getElem_cons hi1, List.prod_cons]
  · intro h
    subst h
    rfl

/-- Witness for C2 at `sizes = [4, 5]`: `strides[0] = 4 * 5 = 20`. -/
theorem mv_C2_strides_witness :
    (mkOffsets [4, 5])[0]? = some (([4, 5] : List Nat).drop 0).prod :=
  (mv_C2_strides [4, 5]).2.1 0 (by decide)

/-- C10: Zero-stride indexing is total — on a view with remaining
dimensions whose first stride entry is 0, `index(i)` succeeds for every
`i`, returning a view over an empty sub-range (`[i*0, (i+1)*0)`). -/
theorem mv_C10_zero_stride (T : Type) (v : MultiVecRef T) (rest : List Nat)
    (h : v.offsets = 0 :: rest) (i : Nat) :
    v.index i = some ⟨[], rest⟩ := by
  unfold MultiVecRef.index
  rw [h]
  simp

/-- Witness for C10: a container with `outer_size = 2`, `sizes = [0]`
accepts the out-of-declared-range index 5 and yields the empty view. -/
theorem mv_C10_zero_stride_witness :
    (MultiVec.toRef (MultiVec.from_fn Nat 2 [0] fun _ _ => 0)).index 5
      = some ⟨[], []⟩ :=
  mv_C10_zero_stride Nat
    (MultiVec.toRef (MultiVec.from_fn Nat 2 [0] fun _ _ => 0)) [] (by decide) 5

/-- C3 counterexample: for `from_fn(1, [0], f)` the claim demands
`size() = 1` at the root (the declared outer extent, with a zero-sized
inner dimension); the code computes `len / strides[0] = 0 / 0`, a Rust
division-by-zero panic (modelled `none`), not `some 1`. -/
theorem mv_C3_counterexample :
    (MultiVec.toRef (MultiVec.from_fn Nat 1 [0] fun _ _ => 0)).size = none
    ∧ (MultiVec.toRef (MultiVec.from_fn Nat 1 [0] fun _ _ => 0)).size
        ≠ some 1 := by
  constructor
  · decide
  · decide

/-- C3 amended: after any in-range chain of index steps `p` on
`from_fn(outer_size, sizes, f)`, `size()` returns the declared extent at
that level whenever the product of the deeper declared sizes is nonzero;
when that product is zero, `size()` panics with a division by zero
(`none`) instead of returning the extent. -/
theorem mv_C3_size (T : Type) (outer : Nat) (sizes : List Nat)
    (f : Nat → List Nat → T) (p : List Nat)
    (hp : List.Forall₂ (· < ·) p ((outer :: sizes).take p.length))
    (hn : p.length ≤ sizes.length) :
    ∃ v : MultiVecRef T,
      viewPath (MultiVec.toRef (MultiVec.from_fn T outer sizes f)) p = some v
      ∧ v.size = (if (sizes.drop p.length).prod = 0 then none
          else some ((outer :: sizes).getD p.length 0)) := by
  have hcore := viewPath_core p sizes (fromFnStorage T outer sizes f) outer
    (fromFnStorage_length outer sizes f) hp hn
  obtain ⟨sub, hview, hsublen⟩ := hcore
  have hstep : (outer :: sizes).drop p.length
      = (outer :: sizes).getD p.length 0 :: sizes.drop p.length := by
    have hplt : p.length < (outer :: sizes).length := by
      rw [List.length_cons]
      omega
    rw [List.drop_eq_getElem_cons hplt, List.getD_eq_getElem?_getD,
      List.getElem?_eq_getElem hplt]
    rfl
  refine ⟨⟨sub, suffixProds (sizes.drop p.length)⟩, ?_, ?_⟩
  · show viewPath ⟨fromFnStorage T outer sizes f, mkOffsets sizes⟩ p = _
    rw [mkOffsets_eq_suffixProds]
    exact hview
  · unfold MultiVecRef.size
    rcases hdrop : sizes.drop p.length with _ | ⟨s, rest⟩
    · rw [hdrop] at hstep
      rw [hstep] at hsublen
      dsimp only [suffixProds, List.headD]
      rw [List.prod_nil, if_neg one_ne_zero, if_neg one_ne_zero, hsublen]
      simp
    · rw [hdrop] at hstep
      rw [hstep] at hsublen
      dsimp only [suffixProds, List.headD]
      by_cases hz : s * rest.prod = 0
      · rw [if_pos hz, if_pos (by rw [List.prod_cons]; exact hz)]
      · rw [if_neg hz, if_neg (by rw [List.prod_cons]; exact hz), hsublen]
        rw [List.prod_cons, List.prod_cons,
          Nat.mul_div_cancel _ (Nat.pos_of_ne_zero hz)]

/-- Witness for C3 amended: `from_fn(3, [4,5], f)` after one index step
reports `size() = 4`. -/
theorem mv_C3_size_witness :
    ∃ v : MultiVecRef Nat,
      viewPath (MultiVec.toRef (MultiVec.from_fn Nat 3 [4, 5] fun _ _ => 0)) [1]
        = some v ∧ v.size = some 4 := by
  have h := mv_C3_size Nat 3 [4, 5] (fun _ _ => 0) [1]
    (List.Forall₂.cons (by omega) List.Forall₂.nil) (by decide)
  simpa using h

/-- C4 counterexample: the claim says any `index(0)` on a container with
`outer_size = 0` is a bounds violation; but for `from_fn(0, [0], f)` the
stride is 0, so `index(0)` takes the in-bounds empty sub-range `[0, 0)`
and succeeds. -/
theorem mv_C4_counterexample :
    (MultiVec.toRef (MultiVec.from_fn Nat 0 [0] fun _ _ => 0)).index 0
      = some ⟨[], []⟩ := by
  decide

/-- C4 amended: whenever `size()` is defined (the leading stride is
nonzero, in particular whenever `N = 0` or no declared size is zero),
`index(i)` succeeds exactly when `i < size()` — out-of-range indexing
panics rather than clamping; and on a container with `outer_size = 0`
whose declared sizes have nonzero product, `index(0)` panics. -/
theorem mv_C4_bounds (T : Type) :
    (∀ (v : MultiVecRef T) (s : Nat), v.size = some s → ∀ i : Nat,
      (v.offsets = [] → ((v.index0 i).isSome ↔ i < s))
      ∧ (v.offsets ≠ [] → ((v.index i).isSome ↔ i < s)))
    ∧ (∀ (sizes : List Nat) (f : Nat → List Nat → T), sizes.prod ≠ 0 →
        (MultiVec.toRef (MultiVec.from_fn T 0 sizes f)).index 0 = none
        ∧ (MultiVec.toRef (MultiVec.from_fn T 0 sizes f)).index0 0 = none) := by
  constructor
  · intro v s hs i
    unfold MultiVecRef.size at hs
    constructor
    · intro hoff
      rw [hoff] at hs
      dsimp only [List.headD] at hs
      rw [if_neg one_ne_zero] at hs
      have hs2 : v.slice.length = s := by
        have h2 := Option.some.inj hs
        rwa [Nat.div_one] at h2
      unfold MultiVecRef.index0
      rw [getElem?_isSome_iff]
      omega
    · intro hoff
      rcases hv : v.offsets with _ | ⟨off, rest⟩
      · exact absurd hv hoff
      rw [hv] at hs
      dsimp only [List.headD] at hs
      by_cases hz : off = 0
      · rw [if_pos hz] at hs
        cases hs
      · rw [if_neg hz] at hs
        have hs2 : v.slice.length / off = s := Option.some.inj hs
        have hpos : 0 < off := Nat.pos_of_ne_zero hz
        unfold MultiVecRef.index
        rw [hv]
        dsimp only
        by_cases hb : (i + 1) * off ≤ v.slice.length
        · rw [if_pos hb]
          simp only [Option.isSome_some, true_iff]
          have h3 := (Nat.le_div_iff_mul_le hpos).mpr hb
          rw [hs2] at h3
          omega
        · rw [if_neg hb]
          simp only [Option.isSome_none, Bool.false_eq_true, false_iff, not_lt]
          have h3 : ¬ (i + 1 ≤ v.slice.length / off) := fun hcon =>
            hb ((Nat.le_div_iff_mul_le hpos).mp hcon)
          rw [hs2] at h3
          omega
  · intro sizes f hz
    have hlen : (fromFnStorage T 0 sizes f).length = 0 := by
      rw [fromFnStorage_length, Nat.zero_mul]
    constructor
    · show MultiVecRef.index ⟨fromFnStorage T 0 sizes f, mkOffsets sizes⟩ 0 = none
      rw [mkOffsets_eq_suffixProds]
      rcases sizes with _ | ⟨s, rest⟩
      · rfl
      · rw [List.prod_cons] at hz
        unfold MultiVecRef.index
        dsimp only [suffixProds]
        rw [if_neg (by rw [hlen]; omega)]
    · show (fromFnStorage T 0 sizes f)[0]? = none
      exact List.getElem?_eq_none (by omega)

/-- Witness for C4 amended: on `from_fn(0, [2], f)` the root view has
`size() = 0` and `index(0)` fails. -/
theorem mv_C4_bounds_witness :
    ((MultiVec.toRef (MultiVec.from_fn Nat 0 [2] fun _ _ => 0)).index 0).isSome
      ↔ (0 : Nat) < 0 :=
  ((mv_C4_bounds Nat).1
    (MultiVec.toRef (MultiVec.from_fn Nat 0 [2] fun _ _ => 0)) 0
    (by decide) 0).2 (by decide)

/-- C5: Clone equality and registry independence — a clone compares
equal to its source, the clone's registry starts empty, and equality
depends only on storage and strides, never on registry state. -/
theorem mv_C5_clone (T : Type) (m : MultiVec T) (r r2 : Nat) :
    MultiVec.eqMV (MultiVec.cloneMV m) m
    ∧ (MultiVec.cloneMV m).refs = 0
    ∧ (∀ a b : MultiVec T,
        MultiVec.eqMV a b ↔
          MultiVec.eqMV (⟨a.inner, a.offsets, r⟩ : MultiVec T)
            (⟨b.inner, b.offsets, r2⟩ : MultiVec T)) := by
  refine ⟨⟨rfl, rfl⟩, rfl, ?_⟩
  intro a b
  simp [MultiVec.eqMV]

lemma foldl_set_coords (outer : Nat) (sizes : List Nat)
    (f : Nat → List Nat → T) (l : List T)
    (hlen : l.length = outer * sizes.prod) :
    (coords (outer :: sizes)).foldl (fun acc c =>
        acc.set ((c.headD 0) * sizes.prod + flatIdx sizes c.tail)
          (f (c.headD 0) c.tail)) l
      = fromFnStorage T outer sizes f := by
  have h1 : (coords (outer :: sizes)).foldl (fun acc c =>
        acc.set ((c.headD 0) * sizes.prod + flatIdx sizes c.tail)
          (f (c.headD 0) c.tail)) l
      = ((coords (outer :: sizes)).map fun c =>
          ((c.headD 0) * sizes.prod + flatIdx sizes c.tail,
            f (c.headD 0) c.tail)).foldl
          (fun acc kv => acc.set kv.1 kv.2) l :=
    (List.foldl_map (fun c : List Nat =>
        ((c.headD 0) * sizes.prod + flatIdx sizes c.tail,
          f (c.headD 0) c.tail))
      (fun acc kv => acc.set kv.1 kv.2)
      (coords (outer :: sizes)) l).symm
  rw [h1]
  rw [show (fun c : List Nat =>
        ((c.headD 0) * sizes.prod + flatIdx sizes c.tail,
          f (c.headD 0) c.tail))
      = fun c : List Nat =>
          (flatIdx (outer :: sizes) c, f (c.headD 0) c.tail) from
    funext fun c => by rw [coords_map_headD_tail]]
  rw [show ((coords (outer :: sizes)).map fun c =>
        (flatIdx (outer :: sizes) c, f (c.headD 0) c.tail))
      = ((coords (outer :: sizes)).map (flatIdx (outer :: sizes))).zip
          ((coords (outer :: sizes)).map fun c => f (c.headD 0) c.tail) from
    (List.zip_map' _ _ _).symm]
  rw [coords_map_flatIdx]
  rw [show ((coords (outer :: sizes)).map fun c => f (c.headD 0) c.tail)
      = fromFnStorage T outer sizes f from rfl]
  rw [show (outer :: sizes).prod = (fromFnStorage T outer sizes f).length by
    rw [fromFnStorage_length, List.prod_cons]]
  rw [List.range_eq_range']
  have h4 := foldl_set_shifted (fromFnStorage T outer sizes f) [] l
    (by rw [hlen, fromFnStorage_length])
  simpa using h4

/-- C6: Construction equivalence — a container built with `default` and
then fully populated by writing `f(o, is)` at every in-range coordinate
tuple equals (element-wise, via `PartialEq`) the container built
directly with `from_fn` on the same generator. -/
theorem mv_C6_construction_equiv (T : Type) (outer : Nat) (sizes : List Nat)
    (d : T) (f : Nat → List Nat → T) :
    ∃ m2 : MultiVec T,
      MultiVec.populate (MultiVec.defaultMV T outer sizes d) outer sizes f
        = some m2
      ∧ MultiVec.eqMV m2 (MultiVec.from_fn T outer sizes f) := by
  have hfold := populate_fold sizes outer f (coords (outer :: sizes))
    (fromFnStorage T outer sizes (fun _ _ => d)) 0
    (fun c hc => forall₂_of_mem_coords hc)
    (fromFnStorage_length outer sizes (fun _ _ => d))
  have hset := foldl_set_coords outer sizes f
    (fromFnStorage T outer sizes (fun _ _ => d))
    (fromFnStorage_length outer sizes (fun _ _ => d))
  refine ⟨⟨fromFnStorage T outer sizes f, suffixProds sizes, 0⟩, ?_, ?_⟩
  · show MultiVec.populate
        ⟨fromFnStorage T outer sizes (fun _ _ => d), mkOffsets sizes, 0⟩
        outer sizes f = _
    unfold MultiVec.populate
    rw [mkOffsets_eq_suffixProds, hfold, hset]
  · exact ⟨rfl, (mkOffsets_eq_suffixProds sizes).symm⟩

/-- C7: Write-then-read with frame condition — writing through the
fully-indexed mutable view at `(o, is)` then reading `(o, is)` returns
the written value, and reading any other in-range coordinate tuple
`(o', is')` returns the element that was there before the write. -/
theorem mv_C7_write_read (T : Type) (outer : Nat) (sizes : List Nat)
    (m : MultiVec T) (hoffs : m.offsets = mkOffsets sizes)
    (hlen : m.inner.length = outer * sizes.prod) (val : T)
    (o : Nat) (is : List Nat) (ho : o < outer)
    (his : List.Forall₂ (· < ·) is sizes)
    (o' : Nat) (is' : List Nat) (ho' : o' < outer)
    (his' : List.Forall₂ (· < ·) is' sizes)
    (hdiff : ¬ (o = o' ∧ is = is')) :
    ∃ m2 : MultiVec T, MultiVec.writeMV m o is val = some m2
      ∧ readPath (MultiVec.toRef m2) (o :: is) = some val
      ∧ readPath (MultiVec.toRef m2) (o' :: is')
          = readPath (MultiVec.toRef m) (o' :: is') := by
  have hflt := flatIdx_lt his
  have ha : o * sizes.prod + flatIdx sizes is < outer * sizes.prod := by
    have h2 : (o + 1) * sizes.prod ≤ outer * sizes.prod :=
      Nat.mul_le_mul_right _ (by omega)
    have h3 : (o + 1) * sizes.prod = o * sizes.prod + sizes.prod :=
      Nat.succ_mul o sizes.prod
    omega
  have hw : writePath m.inner m.offsets (o :: is) val
      = some (m.inner.set (o * sizes.prod + flatIdx sizes is) val) := by
    rw [hoffs, mkOffsets_eq_suffixProds]
    exact writePath_eq_set m.inner outer o val hlen ho his
  refine ⟨⟨m.inner.set (o * sizes.prod + flatIdx sizes is) val,
    m.offsets, m.refs⟩, ?_, ?_, ?_⟩
  · unfold MultiVec.writeMV
    rw [hw]
    rfl
  · show readPath ⟨m.inner.set (o * sizes.prod + flatIdx sizes is) val,
      m.offsets⟩ (o :: is) = some val
    rw [hoffs, mkOffsets_eq_suffixProds,
      readPath_eq_getElem? _ outer o (by rw [List.length_set]; exact hlen)
        ho his]
    exact List.getElem?_set_self (by omega)
  · show readPath ⟨m.inner.set (o * sizes.prod + flatIdx sizes is) val,
        m.offsets⟩ (o' :: is')
      = readPath ⟨m.inner, m.offsets⟩ (o' :: is')
    rw [hoffs, mkOffsets_eq_suffixProds,
      readPath_eq_getElem? _ outer o' (by rw [List.length_set]; exact hlen)
        ho' his',
      readPath_eq_getElem? _ outer o' hlen ho' his']
    exact List.getElem?_set_ne fun hcontra =>
      hdiff (addr_inj his his' hcontra)

/-- Witness for C7 at `from_fn(3, [4,5], const 7)`: write 99 at
`(1, 2, 3)`, read it back, and `(0, 0, 0)` is untouched. -/
theorem mv_C7_write_read_witness :
    ∃ m2 : MultiVec Nat,
      MultiVec.writeMV (MultiVec.from_fn Nat 3 [4, 5] fun _ _ => 7)
        1 [2, 3] 99 = some m2
      ∧ readPath (MultiVec.toRef m2) [1, 2, 3] = some 99
      ∧ readPath (MultiVec.toRef m2) [0, 0, 0]
          = readPath (MultiVec.toRef
              (MultiVec.from_fn Nat 3 [4, 5] fun _ _ => 7)) [0, 0, 0] :=
  mv_C7_write_read Nat 3 [4, 5]
    (MultiVec.from_fn Nat 3 [4, 5] fun _ _ => 7) rfl
    (fromFnStorage_length 3 [4, 5] (fun _ _ => 7)) 99
    1 [2, 3] (by decide) (by decide)
    0 [0, 0] (by decide) (by decide) (by decide)

/-- C8: Storage divisibility invariant — `from_fn` builds storage of
length `outer_size * ∏ sizes`; for `N > 0`,
`storage.len() % strides[0] == 0`; for `N = 0` the stride table is empty
and every element is directly addressable; and every write preserves
storage length and strides (extents are immutable after construction). -/
theorem mv_C8_invariant (T : Type) (outer : Nat) (sizes : List Nat)
    (f : Nat → List Nat → T) :
    (MultiVec.from_fn T outer sizes f).inner.length = outer * sizes.prod
    ∧ (sizes ≠ [] →
        (MultiVec.from_fn T outer sizes f).inner.length
          % ((MultiVec.from_fn T outer sizes f).offsets.getD 0 0) = 0)
    ∧ (sizes = [] →
        (MultiVec.from_fn T outer sizes f).offsets = []
        ∧ ∀ i, i < (MultiVec.from_fn T outer sizes f).inner.length →
            ((MultiVec.toRef (MultiVec.from_fn T outer sizes f)).index0 i).isSome
              = true)
    ∧ (∀ (m m2 : MultiVec T) (o : Nat) (is : List Nat) (v : T),
        MultiVec.writeMV m o is v = some m2 →
        m2.inner.length = m.inner.length ∧ m2.offsets = m.offsets) := by
  refine ⟨fromFnStorage_length outer sizes f, ?_, ?_, ?_⟩
  · intro hne
    rcases sizes with _ | ⟨s, rest⟩
    · exact absurd rfl hne
    show (fromFnStorage T outer (s :: rest) f).length
      % ((mkOffsets (s :: rest)).getD 0 0) = 0
    rw [fromFnStorage_length, mkOffsets_eq_suffixProds]
    dsimp only [suffixProds]
    rw [List.getD_cons_zero, List.prod_cons]
    exact Nat.mul_mod_left outer (s * rest.prod)
  · intro hnil
    subst hnil
    refine ⟨rfl, ?_⟩
    intro i hi
    show (fromFnStorage T outer [] f)[i]?.isSome = true
    rw [getElem?_isSome_iff]
    exact hi
  · intro m m2 o is v hw
    unfold MultiVec.writeMV at hw
    rcases hwp : writePath m.inner m.offsets (o :: is) v with _ | out
    · rw [hwp] at hw
      cases hw
    · rw [hwp] at hw
      simp only [Option.map_some'] at hw
      obtain rfl := Option.some.inj hw
      exact ⟨writePath_length (o :: is) m.inner m.offsets v out hwp, rfl⟩

/-- Witness for C8 at `from_fn(3, [4,5], const 0)`:
`60 % strides[0] = 60 % 20 = 0`. -/
theorem mv_C8_invariant_witness :
    (MultiVec.from_fn Nat 3 [4, 5] fun _ _ => 0).inner.length
      % ((MultiVec.from_fn Nat 3 [4, 5] fun _ _ => 0).offsets.getD 0 0) = 0 :=
  (mv_C8_invariant Nat 3 [4, 5] (fun _ _ => 0)).2.1 (by decide)
